import Mathlib

/-!
Shallow embedding of the two HyperLogLog estimators of
src/primer/hyperloglog.cpp (dense) and src/primer/hyperloglog_presto.cpp
(compact), together with theorems about their spec.

Machine-value conventions of the embedding:
* a 64-bit hash is a natural number; the bitset view bset[i] of the C++
  code is Nat.testBit, so only the low 64 bits are ever read;
* uint64 registers and the size_t cardinality are naturals (the program
  only ever stores ranks bounded by 64 and monotonically grown estimates,
  so no modular wraparound is reachable and none is modelled);
* the double-precision sums and the estimate formula are modelled over
  the rationals, the exact-arithmetic idealization of the doubles
  (every summand 1 / 2 ^ r is a dyadic rational, exact in double for all
  reachable register values r <= 64).
-/

namespace bustub

/-- Modelled from the spec: BITSET_CAPACITY, declared in the missing header
primer/hyperloglog.h, is the width of the hash view; the spec fixes a 64-bit
hash. -/
def BITSET_CAPACITY : Nat := 64

/-- Modelled from the spec: DENSE_BUCKET_SIZE, declared in the missing header
primer/hyperloglog_presto.h, is the width of the dense field; the spec fixes a
4-bit dense field (the code masks with 0x0F and shifts by it). -/
def DENSE_BUCKET_SIZE : Nat := 4

/-- Modelled from the spec: CONSTANT, declared in the missing headers, is the
fixed bias-correction constant alpha of the estimate formula; no theorem below
depends on its exact value. -/
def CONSTANT : ℚ := 0.79402

/-- The value of bset[i] used as an integer (bool * int in the C++ loops). -/
def bitv (hash i : Nat) : Nat := if hash.testBit i then 1 else 0

/-- State of the dense estimator: field names follow the C++ members.
CalculateHash is an external capability (out of scope per the spec), so
operations take the 64-bit hash directly. -/
structure HyperLogLog where
  n_bits_ : Nat
  buckets_ : List Nat
  cardinality_ : Nat

/-- Constructor HyperLogLog(int16_t n_bits): clamps a negative argument to 0
and allocates 2 ^ n_bits zeroed registers. -/
def HyperLogLog.new (n_bits : Int) : HyperLogLog :=
  let nb := if n_bits < 0 then (0 : Int) else n_bits
  { n_bits_ := nb.toNat
    buckets_ := List.replicate (2 ^ nb.toNat) 0
    cardinality_ := 0 }

/-- Loop body of PositionOfLeftmostOne: for i from p upward while
i < BITSET_CAPACITY, test bset[BITSET_CAPACITY - 1 - i]; on a hit return
i - p + 1, when the loop falls through return 0. -/
def lmoGo (p hash i : Nat) : Nat :=
  if h : i < BITSET_CAPACITY then
    if hash.testBit (BITSET_CAPACITY - 1 - i) then i - p + 1
    else lmoGo p hash (i + 1)
  else 0
termination_by BITSET_CAPACITY - i
decreasing_by omega

/-- HyperLogLog::PositionOfLeftmostOne, as a function of the precision
this->n_bits_ and the hash behind the bitset. -/
def PositionOfLeftmostOne (p hash : Nat) : Nat := lmoGo p hash p

/-- HyperLogLog::ComputeBucket: n starts at 0 and the loop adds
bset[BITSET_CAPACITY - 1 - i] * (1 << i) for i = 0 .. p - 1. -/
def ComputeBucket (p hash : Nat) : Nat :=
  (List.range p).foldl (fun n i => n + bitv hash (BITSET_CAPACITY - 1 - i) * 2 ^ i) 0

/-- HyperLogLog::AddElem after hashing: compute the bucket and the leftmost-one
position, then write-if-strictly-greater into the selected register. -/
def HyperLogLog.AddElem (s : HyperLogLog) (hash : Nat) : HyperLogLog :=
  let n := ComputeBucket s.n_bits_ hash
  let lmo := PositionOfLeftmostOne s.n_bits_ hash
  if lmo ≤ s.buckets_.getD n 0 then s
  else { s with buckets_ := s.buckets_.set n lmo }

/-- The sum accumulated by the loop in HyperLogLog::ComputeCardinality:
sum += 1.0 / pow(2, bucket) over all registers. -/
def HyperLogLog.bucketSum (s : HyperLogLog) : ℚ :=
  (s.buckets_.map (fun b => 1 / 2 ^ b)).sum

/-- The estimate floor(CONSTANT * m * m / sum) cast to size_t, computed by
HyperLogLog::ComputeCardinality in its sum > 0 branch. -/
def HyperLogLog.estimate (s : HyperLogLog) : Nat :=
  (⌊CONSTANT * (s.buckets_.length : ℚ) * (s.buckets_.length : ℚ) / s.bucketSum⌋).toNat

/-- HyperLogLog::ComputeCardinality: abort if sum <= 0; otherwise adopt the
estimate only when strictly greater than the stored cardinality. -/
def HyperLogLog.ComputeCardinality (s : HyperLogLog) : HyperLogLog :=
  if s.bucketSum ≤ 0 then s
  else if s.estimate ≤ s.cardinality_ then s
  else { s with cardinality_ := s.estimate }

/-- State of the compact (Presto) estimator. Modelled from the spec: the
overflow mapping, whose type lives in the missing header
primer/hyperloglog_presto.h, is a sparse mapping from register index to the
high bits of the register value (absence of an entry means overflow 0); it is
embedded as a function to Option Nat. -/
structure HyperLogLogPresto where
  n_leading_bits_ : Nat
  dense_bucket_ : List Nat
  overflow_bucket_ : Nat → Option Nat
  cardinality_ : Nat

/-- Constructor HyperLogLogPresto(int16_t n_leading_bits): clamps a negative
argument to 0 and allocates 2 ^ n_leading_bits zeroed dense fields with an
empty overflow mapping. -/
def HyperLogLogPresto.new (n_leading_bits : Int) : HyperLogLogPresto :=
  let nb := if n_leading_bits < 0 then (0 : Int) else n_leading_bits
  { n_leading_bits_ := nb.toNat
    dense_bucket_ := List.replicate (2 ^ nb.toNat) 0
    overflow_bucket_ := fun _ => none
    cardinality_ := 0 }

/-- HyperLogLogPresto::ComputeBucketIndex: ret starts at 0 and the loop adds
bset[63 - j] * (1 << j) for j = 0 .. p - 1. -/
def ComputeBucketIndex (p hash : Nat) : Nat :=
  (List.range p).foldl (fun ret j => ret + bitv hash (63 - j) * 2 ^ j) 0

/-- Loop body of PositionOfRightMostOne: for i from 0 upward while
i < 64 - p, return the first i with bset[i] set, else return 64 - p. -/
def rmoGo (p hash i : Nat) : Nat :=
  if h : i < 64 - p then
    if hash.testBit i then i
    else rmoGo p hash (i + 1)
  else 64 - p
termination_by 64 - p - i
decreasing_by omega

/-- HyperLogLogPresto::PositionOfRightMostOne, as a function of the precision
this->n_leading_bits_ and the hash behind the bitset. -/
def PositionOfRightMostOne (p hash : Nat) : Nat := rmoGo p hash 0

/-- HyperLogLogPresto::GetBucketValue: the dense field alone when no overflow
entry exists for the index, otherwise dense + (overflow << DENSE_BUCKET_SIZE).
-/
def HyperLogLogPresto.GetBucketValue (s : HyperLogLogPresto) (index : Nat) : Nat :=
  let dense := s.dense_bucket_.getD index 0
  match s.overflow_bucket_ index with
  | none => dense
  | some e => dense + (e <<< DENSE_BUCKET_SIZE)

/-- HyperLogLogPresto::SetBucketValue: writes value & 0x0F into the dense
field, computes overflow = value >> DENSE_BUCKET_SIZE, and returns early
(keeping any prior overflow entry) when the overflow is zero. -/
def HyperLogLogPresto.SetBucketValue (s : HyperLogLogPresto) (index value : Nat) :
    HyperLogLogPresto :=
  let s1 := { s with dense_bucket_ := s.dense_bucket_.set index (value &&& 0xF) }
  let overflow := value >>> DENSE_BUCKET_SIZE
  if overflow = 0 then s1
  else { s1 with overflow_bucket_ := fun j => if j = index then some overflow else s.overflow_bucket_ j }

/-- HyperLogLogPresto::AddElem after hashing: compute index and rightmost-one
position, read the combined register value, write back only if strictly
greater. -/
def HyperLogLogPresto.AddElem (s : HyperLogLogPresto) (hash : Nat) : HyperLogLogPresto :=
  let bucket_index := ComputeBucketIndex s.n_leading_bits_ hash
  let rmo := PositionOfRightMostOne s.n_leading_bits_ hash
  let current := s.GetBucketValue bucket_index
  if rmo > current then s.SetBucketValue bucket_index rmo else s

/-- HyperLogLogPresto::CalBucketSum: sum of 1.0 / pow(2, GetBucketValue(i))
over i = 0 .. m - 1. -/
def HyperLogLogPresto.CalBucketSum (s : HyperLogLogPresto) : ℚ :=
  ((List.range s.dense_bucket_.length).map (fun i => 1 / 2 ^ s.GetBucketValue i)).sum

/-- HyperLogLogPresto::CalCardinality: floor(CONSTANT * m * m / sum) cast to
size_t. -/
def HyperLogLogPresto.CalCardinality (s : HyperLogLogPresto) (sum : ℚ) : Nat :=
  (⌊CONSTANT * (s.dense_bucket_.length : ℚ) * (s.dense_bucket_.length : ℚ) / sum⌋).toNat

/-- HyperLogLogPresto::ComputeCardinality: adopt the estimate only when
strictly greater than the stored cardinality (no sum guard in this variant).
-/
def HyperLogLogPresto.ComputeCardinality (s : HyperLogLogPresto) : HyperLogLogPresto :=
  let sum := s.CalBucketSum
  let cardinality := s.CalCardinality sum
  if cardinality ≤ s.cardinality_ then s
  else { s with cardinality_ := cardinality }

/-- One public call on an estimator: an AddElem with a given hash, or a
ComputeCardinality. -/
inductive HLLOp where
  | add (hash : Nat)
  | compute

/-- Apply one call to the dense estimator. -/
def HyperLogLog.step (s : HyperLogLog) : HLLOp → HyperLogLog
  | HLLOp.add h => s.AddElem h
  | HLLOp.compute => s.ComputeCardinality

/-- Apply a sequence of calls to the dense estimator. -/
def HyperLogLog.run (s : HyperLogLog) (ops : List HLLOp) : HyperLogLog :=
  ops.foldl HyperLogLog.step s

/-- Apply one call to the compact estimator. -/
def HyperLogLogPresto.step (s : HyperLogLogPresto) : HLLOp → HyperLogLogPresto
  | HLLOp.add h => s.AddElem h
  | HLLOp.compute => s.ComputeCardinality

/-- Apply a sequence of calls to the compact estimator. -/
def HyperLogLogPresto.run (s : HyperLogLogPresto) (ops : List HLLOp) : HyperLogLogPresto :=
  ops.foldl HyperLogLogPresto.step s

/-- The dense estimator after a fresh construction with precision n followed
by the AddElem calls for the given hashes. -/
def denseAdds (n : Int) (hashes : List Nat) : HyperLogLog :=
  hashes.foldl HyperLogLog.AddElem (HyperLogLog.new n)

/-- The compact estimator after a fresh construction with precision n followed
by the AddElem calls for the given hashes. -/
def prestoAdds (n : Int) (hashes : List Nat) : HyperLogLogPresto :=
  hashes.foldl HyperLogLogPresto.AddElem (HyperLogLogPresto.new n)

/-- The p-bit reversal of the low p bits of a number: bit 0 becomes the most
significant of the p output digits. Used to state what the index-extraction
loops actually compute. -/
def reverseBits : Nat → Nat → Nat
  | 0, _ => 0
  | p + 1, n => n % 2 * 2 ^ p + reverseBits p (n / 2)

/-- The contribution of an overflow mapping entry to the recombined register
value: 0 when absent, e << 4 when present. -/
def ovfVal : Option Nat → Nat
  | none => 0
  | some e => e * 16

/-- Invariant of all states of the compact estimator reachable from
construction: every overflow mapping entry is at least 1 (entries are only
ever written with a non-zero overflow). It guarantees that a register with an
overflow entry has combined value at least 16. -/
def GoodOverflow (s : HyperLogLogPresto) : Prop :=
  ∀ i e, s.overflow_bucket_ i = some e → 1 ≤ e

/-! Helper lemmas shared by the claim theorems. -/

theorem getD_set (l : List Nat) (i j a d : Nat) :
    (l.set i a).getD j d = if i = j ∧ i < l.length then a else l.getD j d := by
  by_cases hij : i = j
  · subst hij
    by_cases hlen : i < l.length
    · simp [List.getD_eq_getElem?_getD, List.getElem?_set_self hlen, hlen]
    · have hnone : l[i]? = none := List.getElem?_eq_none (by omega)
      simp [List.getD_eq_getElem?_getD, List.getElem?_set, hlen, hnone]
  · simp [List.getD_eq_getElem?_getD, List.getElem?_set_ne hij, hij]

theorem bitv_eq (hash k : Nat) : bitv hash k = hash / 2 ^ k % 2 := by
  unfold bitv
  rw [Nat.testBit_to_div_mod]
  rcases Nat.mod_two_eq_zero_or_one (hash / 2 ^ k) with h | h <;> simp [h]

theorem bitv_le_one (hash k : Nat) : bitv hash k ≤ 1 := by
  unfold bitv
  split <;> omega

theorem ComputeBucket_succ (p hash : Nat) :
    ComputeBucket (p + 1) hash =
      ComputeBucket p hash + bitv hash (BITSET_CAPACITY - 1 - p) * 2 ^ p := by
  unfold ComputeBucket
  rw [List.range_succ, List.foldl_append, List.foldl_cons, List.foldl_nil]

theorem ComputeBucketIndex_eq (p hash : Nat) :
    ComputeBucketIndex p hash = ComputeBucket p hash := rfl

theorem ComputeBucket_lt (p hash : Nat) : ComputeBucket p hash < 2 ^ p := by
  induction p with
  | zero => simp [ComputeBucket]
  | succ q ih =>
      rw [ComputeBucket_succ]
      have hb : bitv hash (BITSET_CAPACITY - 1 - q) * 2 ^ q ≤ 1 * 2 ^ q :=
        Nat.mul_le_mul_right _ (bitv_le_one hash _)
      have h2 : 2 ^ (q + 1) = 2 ^ q + 2 ^ q := by ring
      omega

theorem ComputeBucket_eq_reverseBits (p hash : Nat) (hp : p ≤ 64) :
    ComputeBucket p hash = reverseBits p (hash >>> (64 - p)) := by
  induction p with
  | zero => rfl
  | succ q ih =>
      have hq : q ≤ 64 := by omega
      have hcap : BITSET_CAPACITY - 1 - q = 63 - q := rfl
      rw [ComputeBucket_succ, hcap, reverseBits, ih hq]
      have h1 : 64 - (q + 1) = 63 - q := by omega
      rw [h1]
      have hmod : hash >>> (63 - q) % 2 = bitv hash (63 - q) := by
        rw [bitv_eq, Nat.shiftRight_eq_div_pow]
      have hdiv : hash >>> (63 - q) / 2 = hash >>> (64 - q) := by
        rw [← Nat.shiftRight_succ]
        congr 1
        omega
      rw [hmod, hdiv]
      ring

/-- C1: the claim fails on the code. With precision 2 and the hash 2 ^ 63
(only the most significant bit set), hash >> (64 - 2) = 2, but both
ComputeBucket and ComputeBucketIndex weight the most significant selected bit
by 2 ^ 0 and therefore return 1. -/
theorem C1_counterexample :
    ¬ (ComputeBucket 2 (2 ^ 63) = 2 ^ 63 >>> (64 - 2) ∧
       ComputeBucketIndex 2 (2 ^ 63) = 2 ^ 63 >>> (64 - 2)) := by
  decide

/-- C1 (amended): for every hash and every precision p <= 64, both
ComputeBucket (dense) and ComputeBucketIndex (compact) return the integer in
[0, 2 ^ p) obtained by treating the top p bits of the hash as binary digits
with the most significant selected bit LAST, that is, the p-bit reversal of
hash >> (64 - p) (and 0 when p = 0). -/
theorem C1_index_extraction (p hash : Nat) (hp : p ≤ 64) :
    ComputeBucket p hash = reverseBits p (hash >>> (64 - p)) ∧
    ComputeBucketIndex p hash = reverseBits p (hash >>> (64 - p)) ∧
    ComputeBucket p hash < 2 ^ p ∧
    (p = 0 → ComputeBucket p hash = 0) := by
  refine ⟨ComputeBucket_eq_reverseBits p hash hp, ?_, ComputeBucket_lt p hash, ?_⟩
  · rw [ComputeBucketIndex_eq]
    exact ComputeBucket_eq_reverseBits p hash hp
  · intro h
    subst h
    rfl

/-- C1 witness: the amended theorem applied at precision 2 and hash 2 ^ 63. -/
theorem C1_index_extraction_witness :
    2 ≤ 64 ∧
    (ComputeBucket 2 (2 ^ 63) = reverseBits 2 (2 ^ 63 >>> (64 - 2)) ∧
     ComputeBucketIndex 2 (2 ^ 63) = reverseBits 2 (2 ^ 63 >>> (64 - 2)) ∧
     ComputeBucket 2 (2 ^ 63) < 2 ^ 2 ∧
     (2 = 0 → ComputeBucket 2 (2 ^ 63) = 0)) :=
  ⟨by decide, C1_index_extraction 2 (2 ^ 63) (by decide)⟩

theorem rmoGo_spec (p hash : Nat) :
    ∀ k i, 64 - p - i ≤ k → (∀ j, j < i → hash.testBit j = false) →
      (rmoGo p hash i = 64 - p ∧ ∀ j, j < 64 - p → hash.testBit j = false) ∨
      (rmoGo p hash i < 64 - p ∧ hash.testBit (rmoGo p hash i) = true ∧
        ∀ j, j < rmoGo p hash i → hash.testBit j = false) := by
  intro k
  induction k with
  | zero =>
      intro i hk hpre
      rw [rmoGo, dif_neg (by omega)]
      exact Or.inl ⟨rfl, fun j hj => hpre j (by omega)⟩
  | succ k ih =>
      intro i hk hpre
      by_cases hi : i < 64 - p
      · rw [rmoGo, dif_pos hi]
        cases htb : hash.testBit i with
        | true =>
            rw [if_pos rfl]
            exact Or.inr ⟨hi, htb, hpre⟩
        | false =>
            rw [if_neg (by simp)]
            refine ih (i + 1) (by omega) (fun j hj => ?_)
            rcases Nat.lt_succ_iff_lt_or_eq.mp hj with h | h
            · exact hpre j h
            · subst h
              exact htb
      · rw [rmoGo, dif_neg hi]
        exact Or.inl ⟨rfl, fun j hj => hpre j (by omega)⟩

/-- C6: for every hash and every precision p <= 64, PositionOfRightMostOne
returns the 0-based position of the first 1 bit scanning from the least
significant bit upward through the low 64 - p tail bits, and returns 64 - p
(the tail length) when the entire tail is zero. -/
theorem C6_rightmost_one (p hash : Nat) (hp : p ≤ 64) :
    (PositionOfRightMostOne p hash = 64 - p ∧
      ∀ j, j < 64 - p → hash.testBit j = false) ∨
    (PositionOfRightMostOne p hash < 64 - p ∧
      hash.testBit (PositionOfRightMostOne p hash) = true ∧
      ∀ j, j < PositionOfRightMostOne p hash → hash.testBit j = false) := by
  unfold PositionOfRightMostOne
  exact rmoGo_spec p hash (64 - p) 0 (by omega) (fun j hj => absurd hj (Nat.not_lt_zero j))

/-- C6 witness: with precision 4 and hash 40 (binary 101000), the first set
bit of the 60-bit tail is at position 3. -/
theorem C6_rightmost_one_witness :
    4 ≤ 64 ∧
    ((PositionOfRightMostOne 4 40 = 64 - 4 ∧
       ∀ j, j < 64 - 4 → Nat.testBit 40 j = false) ∨
     (PositionOfRightMostOne 4 40 < 64 - 4 ∧
       Nat.testBit 40 (PositionOfRightMostOne 4 40) = true ∧
       ∀ j, j < PositionOfRightMostOne 4 40 → Nat.testBit 40 j = false)) :=
  ⟨by decide, C6_rightmost_one 4 40 (by decide)⟩

theorem lmoGo_spec (p hash : Nat) (hp : p ≤ 64) :
    ∀ k i, 64 - i ≤ k → p ≤ i → i ≤ 64 →
      (∀ b, 64 - i ≤ b → b < 64 - p → hash.testBit b = false) →
      ((lmoGo p hash i = 0 ∧ ∀ b, b < 64 - p → hash.testBit b = false) ∨
       (∃ b, b < 64 - p ∧ hash.testBit b = true ∧
          (∀ j, b < j → j < 64 - p → hash.testBit j = false) ∧
          lmoGo p hash i = 64 - p - b)) := by
  intro k
  induction k with
  | zero =>
      intro i hk hpi hi64 hpre
      have hieq : i = 64 := by omega
      subst hieq
      rw [lmoGo, dif_neg (by simp [BITSET_CAPACITY])]
      exact Or.inl ⟨rfl, fun b hb => hpre b (by omega) hb⟩
  | succ k ih =>
      intro i hk hpi hi64 hpre
      by_cases hi : i < 64
      · rw [lmoGo, dif_pos (by simp [BITSET_CAPACITY]; omega)]
        have hcap : BITSET_CAPACITY - 1 - i = 63 - i := rfl
        rw [hcap]
        cases htb : hash.testBit (63 - i) with
        | true =>
            rw [if_pos rfl]
            refine Or.inr ⟨63 - i, by omega, htb, fun j hj1 hj2 => hpre j (by omega) hj2, by omega⟩
        | false =>
            rw [if_neg (by simp)]
            refine ih (i + 1) (by omega) (by omega) (by omega) (fun b hb1 hb2 => ?_)
            by_cases hbe : b = 63 - i
            · subst hbe
              exact htb
            · exact hpre b (by omega) hb2
      · rw [lmoGo, dif_neg (by simp [BITSET_CAPACITY]; omega)]
        exact Or.inl ⟨rfl, fun b hb => hpre b (by omega) hb⟩

/-- C7: for every hash and every precision p <= 64, PositionOfLeftmostOne
returns the 1-based position, counted from the bit immediately after the p
index bits toward the least significant bit, of the first 1 bit of the
64 - p tail (that is, 64 - p - b where b is the highest set tail bit), and
returns 0, not the tail length, when the tail has no 1 bit. -/
theorem C7_leftmost_one (p hash : Nat) (hp : p ≤ 64) :
    ((∀ b, b < 64 - p → hash.testBit b = false) ∧ PositionOfLeftmostOne p hash = 0) ∨
    (∃ b, b < 64 - p ∧ hash.testBit b = true ∧
      (∀ j, b < j → j < 64 - p → hash.testBit j = false) ∧
      PositionOfLeftmostOne p hash = 64 - p - b) := by
  unfold PositionOfLeftmostOne
  rcases lmoGo_spec p hash hp (64 - p) p (by omega) (le_refl p) hp
      (fun b hb1 hb2 => absurd (lt_of_le_of_lt hb1 hb2) (lt_irrefl _)) with h | h
  · exact Or.inl ⟨h.2, h.1⟩
  · exact Or.inr h

/-- C7 witness: with precision 4 and hash 1, the highest set tail bit is
bit 0, at 1-based position 60 from the start of the 60-bit tail. -/
theorem C7_leftmost_one_witness :
    4 ≤ 64 ∧
    (((∀ b, b < 64 - 4 → Nat.testBit 1 b = false) ∧ PositionOfLeftmostOne 4 1 = 0) ∨
     (∃ b, b < 64 - 4 ∧ Nat.testBit 1 b = true ∧
        (∀ j, b < j → j < 64 - 4 → Nat.testBit 1 j = false) ∧
        PositionOfLeftmostOne 4 1 = 64 - 4 - b)) :=
  ⟨by decide, C7_leftmost_one 4 1 (by decide)⟩

theorem and_mask_eq_mod (v : Nat) : v &&& 0xF = v % 16 :=
  Nat.and_pow_two_sub_one_eq_mod v 4

theorem shiftr_dense_eq_div (v : Nat) : v >>> DENSE_BUCKET_SIZE = v / 16 := by
  rw [DENSE_BUCKET_SIZE, Nat.shiftRight_eq_div_pow]

theorem shiftl_dense_eq_mul (v : Nat) : v <<< DENSE_BUCKET_SIZE = v * 16 := by
  rw [DENSE_BUCKET_SIZE, Nat.shiftLeft_eq]

theorem set_dense_bucket (s : HyperLogLogPresto) (index value : Nat) :
    (s.SetBucketValue index value).dense_bucket_ = s.dense_bucket_.set index (value &&& 0xF) := by
  unfold HyperLogLogPresto.SetBucketValue
  dsimp only
  split <;> rfl

theorem set_overflow_bucket (s : HyperLogLogPresto) (index value : Nat) :
    (s.SetBucketValue index value).overflow_bucket_ =
      if value >>> DENSE_BUCKET_SIZE = 0 then s.overflow_bucket_
      else fun j => if j = index then some (value >>> DENSE_BUCKET_SIZE) else s.overflow_bucket_ j := by
  unfold HyperLogLogPresto.SetBucketValue
  dsimp only
  split <;> rename_i h <;> simp [h]

theorem set_cardinality (s : HyperLogLogPresto) (index value : Nat) :
    (s.SetBucketValue index value).cardinality_ = s.cardinality_ := by
  unfold HyperLogLogPresto.SetBucketValue
  dsimp only
  split <;> rfl

theorem ovfVal_none : ovfVal none = 0 := rfl

theorem ovfVal_some (e : Nat) : ovfVal (some e) = e * 16 := rfl

theorem get_eq (s : HyperLogLogPresto) (index : Nat) :
    s.GetBucketValue index =
      s.dense_bucket_.getD index 0 + ovfVal (s.overflow_bucket_ index) := by
  unfold HyperLogLogPresto.GetBucketValue
  cases s.overflow_bucket_ index with
  | none => simp [ovfVal_none]
  | some e => simp [ovfVal_some, shiftl_dense_eq_mul]

/-- C2: the claim fails on the code. Writing 16 into register 0 creates the
overflow entry 1; a later SetBucketValue(0, 5) rewrites the dense field to 5
but returns before touching the overflow entry, so GetBucketValue(0) then
recombines to 5 + (1 << 4) = 21, not 5, although 5 lies in the claimed range.
-/
theorem C2_counterexample :
    (((HyperLogLogPresto.new 0).SetBucketValue 0 16).SetBucketValue 0 5).GetBucketValue 0 = 21 ∧
    ¬ ((((HyperLogLogPresto.new 0).SetBucketValue 0 16).SetBucketValue 0 5).GetBucketValue 0 = 5) := by
  decide

/-- C2 (amended): for the compact estimator, for every register index (below
the register count) and every value v in [0, 2 ^ (4 + overflow width)), if no
overflow entry exists for the index or v >= 16, then after
SetBucketValue(index, v) a call to GetBucketValue(index) returns exactly v.
The side condition is forced by the early return of SetBucketValue, which
leaves a stale overflow entry in place whenever v >> 4 = 0. -/
theorem C2_roundtrip (s : HyperLogLogPresto) (index v : Nat)
    (hidx : index < s.dense_bucket_.length)
    (hv : v < 2 ^ (DENSE_BUCKET_SIZE + 3))
    (hpre : s.overflow_bucket_ index = none ∨ 16 ≤ v) :
    (s.SetBucketValue index v).GetBucketValue index = v := by
  rw [get_eq, set_dense_bucket, set_overflow_bucket, getD_set, if_pos ⟨rfl, hidx⟩,
    and_mask_eq_mod, shiftr_dense_eq_div]
  by_cases hov : v / 16 = 0
  · rw [if_pos hov]
    have hnone : s.overflow_bucket_ index = none := by
      rcases hpre with h | h
      · exact h
      · exact absurd h (by omega)
    rw [hnone]
    show v % 16 + 0 = v
    omega
  · rw [if_neg hov]
    have happ : (if index = index then some (v / 16) else s.overflow_bucket_ index)
        = some (v / 16) := if_pos rfl
    rw [happ]
    show v % 16 + v / 16 * 16 = v
    omega

/-- C2 witness: the amended theorem applied to a freshly built estimator with
one register, index 0 and value 7. -/
theorem C2_roundtrip_witness :
    0 < (HyperLogLogPresto.new 0).dense_bucket_.length ∧
    7 < 2 ^ (DENSE_BUCKET_SIZE + 3) ∧
    ((HyperLogLogPresto.new 0).overflow_bucket_ 0 = none ∨ 16 ≤ 7) ∧
    ((HyperLogLogPresto.new 0).SetBucketValue 0 7).GetBucketValue 0 = 7 :=
  ⟨by decide, by decide, Or.inl rfl,
    C2_roundtrip (HyperLogLogPresto.new 0) 0 7 (by decide) (by decide) (Or.inl rfl)⟩

/-- C8: SetBucketValue(index, value) writes value & 0xF into the dense field
at index, writes value >> 4 into the overflow mapping at index exactly when
value >> 4 > 0, leaves any prior overflow entry untouched when value >> 4 = 0,
and changes no other register's dense field or overflow entry (nor the
register count or the stored cardinality). -/
theorem C8_set_register_effect (s : HyperLogLogPresto) (index value : Nat)
    (hidx : index < s.dense_bucket_.length) :
    (s.SetBucketValue index value).dense_bucket_.getD index 0 = value &&& 0xF ∧
    (0 < value >>> DENSE_BUCKET_SIZE →
      (s.SetBucketValue index value).overflow_bucket_ index =
        some (value >>> DENSE_BUCKET_SIZE)) ∧
    (value >>> DENSE_BUCKET_SIZE = 0 →
      (s.SetBucketValue index value).overflow_bucket_ index = s.overflow_bucket_ index) ∧
    (∀ j, j ≠ index →
      (s.SetBucketValue index value).dense_bucket_.getD j 0 = s.dense_bucket_.getD j 0 ∧
      (s.SetBucketValue index value).overflow_bucket_ j = s.overflow_bucket_ j) ∧
    (s.SetBucketValue index value).dense_bucket_.length = s.dense_bucket_.length ∧
    (s.SetBucketValue index value).cardinality_ = s.cardinality_ := by
  refine ⟨?_, ?_, ?_, ?_, ?_, set_cardinality s index value⟩
  · rw [set_dense_bucket, getD_set, if_pos ⟨rfl, hidx⟩]
  · intro hov
    rw [set_overflow_bucket, if_neg (by omega), if_pos rfl]
  · intro hov
    rw [set_overflow_bucket, if_pos hov]
  · intro j hj
    constructor
    · rw [set_dense_bucket, getD_set, if_neg (by tauto)]
    · rw [set_overflow_bucket]
      split
      · rfl
      · simp [hj]
  · rw [set_dense_bucket, List.length_set]

/-- C8 witness: the effect theorem applied to a freshly built estimator with
one register, index 0 and value 37 (dense 5, overflow 2). -/
theorem C8_set_register_effect_witness :
    0 < (HyperLogLogPresto.new 0).dense_bucket_.length ∧
    (((HyperLogLogPresto.new 0).SetBucketValue 0 37).dense_bucket_.getD 0 0 = 37 &&& 0xF ∧
     (0 < 37 >>> DENSE_BUCKET_SIZE →
       ((HyperLogLogPresto.new 0).SetBucketValue 0 37).overflow_bucket_ 0 =
         some (37 >>> DENSE_BUCKET_SIZE)) ∧
     (37 >>> DENSE_BUCKET_SIZE = 0 →
       ((HyperLogLogPresto.new 0).SetBucketValue 0 37).overflow_bucket_ 0 =
         (HyperLogLogPresto.new 0).overflow_bucket_ 0) ∧
     (∀ j, j ≠ 0 →
       ((HyperLogLogPresto.new 0).SetBucketValue 0 37).dense_bucket_.getD j 0 =
         (HyperLogLogPresto.new 0).dense_bucket_.getD j 0 ∧
       ((HyperLogLogPresto.new 0).SetBucketValue 0 37).overflow_bucket_ j =
         (HyperLogLogPresto.new 0).overflow_bucket_ j) ∧
     ((HyperLogLogPresto.new 0).SetBucketValue 0 37).dense_bucket_.length =
       (HyperLogLogPresto.new 0).dense_bucket_.length ∧
     ((HyperLogLogPresto.new 0).SetBucketValue 0 37).cardinality_ =
       (HyperLogLogPresto.new 0).cardinality_) :=
  ⟨by decide, C8_set_register_effect (HyperLogLogPresto.new 0) 0 37 (by decide)⟩

theorem calBucketSum_pos (t : HyperLogLogPresto) (hne : t.dense_bucket_ ≠ []) :
    0 < t.CalBucketSum := by
  unfold HyperLogLogPresto.CalBucketSum
  apply List.sum_pos
  · intro x hx
    rw [List.mem_map] at hx
    obtain ⟨i, _, rfl⟩ := hx
    positivity
  · simp only [ne_eq, List.map_eq_nil_iff, List.range_eq_nil, List.length_eq_zero]
    exact hne

/-- C3: whenever the computed sum of 2 ^ (-register[i]) over all registers is
zero or negative, ComputeCardinality of either estimator performs no update:
it returns with the stored cardinality and all registers unchanged. For the
dense estimator this is the explicit sum <= 0 guard; for the compact
estimator a non-positive sum forces an empty register list, in which case the
computed estimate is 0 and the strictly-greater adoption test fails. -/
theorem C3_nonpositive_sum_no_update (s : HyperLogLog) (t : HyperLogLogPresto)
    (hs : s.bucketSum ≤ 0) (ht : t.CalBucketSum ≤ 0) :
    s.ComputeCardinality = s ∧ t.ComputeCardinality = t := by
  constructor
  · unfold HyperLogLog.ComputeCardinality
    rw [if_pos hs]
  · have hnil : t.dense_bucket_ = [] := by
      by_contra hne
      exact absurd ht (not_le.mpr (calBucketSum_pos t hne))
    unfold HyperLogLogPresto.ComputeCardinality HyperLogLogPresto.CalCardinality
    dsimp only
    rw [hnil]
    norm_num

/-- C3 witness: the guard theorem applied to estimator states with an empty
register list (the only states with a non-positive sum) and a stored
cardinality of 3. -/
theorem C3_nonpositive_sum_no_update_witness :
    HyperLogLog.bucketSum ⟨0, [], 3⟩ ≤ 0 ∧
    HyperLogLogPresto.CalBucketSum ⟨0, [], fun _ => none, 3⟩ ≤ 0 ∧
    (HyperLogLog.ComputeCardinality ⟨0, [], 3⟩ = ⟨0, [], 3⟩ ∧
     HyperLogLogPresto.ComputeCardinality ⟨0, [], fun _ => none, 3⟩ =
       ⟨0, [], fun _ => none, 3⟩) :=
  ⟨by norm_num [HyperLogLog.bucketSum],
   by norm_num [HyperLogLogPresto.CalBucketSum],
   C3_nonpositive_sum_no_update ⟨0, [], 3⟩ ⟨0, [], fun _ => none, 3⟩
     (by norm_num [HyperLogLog.bucketSum])
     (by norm_num [HyperLogLogPresto.CalBucketSum])⟩

/-- C9: for every int16 precision argument, construction of either estimator
succeeds: a negative argument is clamped to 0, the estimator starts with
exactly 2 ^ p registers all zero, an empty overflow mapping (compact variant)
and stored cardinality 0; precision 0 yields exactly one register and every
subsequent AddElem maps its key to register index 0 (the index-extraction
loops return 0 when p = 0). -/
theorem C9_construction (n : Int) (hlo : -32768 ≤ n) (hhi : n < 32768) :
    ((HyperLogLog.new n).buckets_.length = 2 ^ (HyperLogLog.new n).n_bits_ ∧
     (∀ x ∈ (HyperLogLog.new n).buckets_, x = 0) ∧
     (HyperLogLog.new n).cardinality_ = 0) ∧
    ((HyperLogLogPresto.new n).dense_bucket_.length =
        2 ^ (HyperLogLogPresto.new n).n_leading_bits_ ∧
     (∀ x ∈ (HyperLogLogPresto.new n).dense_bucket_, x = 0) ∧
     (∀ i, (HyperLogLogPresto.new n).overflow_bucket_ i = none) ∧
     (HyperLogLogPresto.new n).cardinality_ = 0) ∧
    (n < 0 → (HyperLogLog.new n).n_bits_ = 0 ∧ (HyperLogLogPresto.new n).n_leading_bits_ = 0) ∧
    ((HyperLogLog.new n).n_bits_ = 0 →
      (HyperLogLog.new n).buckets_.length = 1 ∧
      (∀ hash, ComputeBucket (HyperLogLog.new n).n_bits_ hash = 0)) ∧
    ((HyperLogLogPresto.new n).n_leading_bits_ = 0 →
      (HyperLogLogPresto.new n).dense_bucket_.length = 1 ∧
      (∀ hash, ComputeBucketIndex (HyperLogLogPresto.new n).n_leading_bits_ hash = 0)) := by
  refine ⟨⟨?_, ?_, rfl⟩, ⟨?_, ?_, fun i => rfl, rfl⟩, ?_, ?_, ?_⟩
  · simp [HyperLogLog.new]
  · intro x hx
    exact List.eq_of_mem_replicate hx
  · simp [HyperLogLogPresto.new]
  · intro x hx
    exact List.eq_of_mem_replicate hx
  · intro hneg
    unfold HyperLogLog.new HyperLogLogPresto.new
    simp [hneg]
  · intro hz
    refine ⟨?_, fun hash => by rw [hz]; rfl⟩
    show (List.replicate (2 ^ (if n < 0 then (0 : Int) else n).toNat) 0).length = 1
    rw [List.length_replicate, show (if n < 0 then (0 : Int) else n).toNat = 0 from hz]
    rfl
  · intro hz
    refine ⟨?_, fun hash => by rw [hz]; rfl⟩
    show (List.replicate (2 ^ (if n < 0 then (0 : Int) else n).toNat) 0).length = 1
    rw [List.length_replicate, show (if n < 0 then (0 : Int) else n).toNat = 0 from hz]
    rfl

/-- C9 witness: construction with the negative int16 argument -3 yields
precision 0, one zeroed register and cardinality 0 in both estimators. -/
theorem C9_construction_witness :
    (-32768 ≤ (-3 : Int) ∧ (-3 : Int) < 32768) ∧
    (((HyperLogLog.new (-3)).buckets_.length = 2 ^ (HyperLogLog.new (-3)).n_bits_ ∧
      (∀ x ∈ (HyperLogLog.new (-3)).buckets_, x = 0) ∧
      (HyperLogLog.new (-3)).cardinality_ = 0) ∧
     ((HyperLogLogPresto.new (-3)).dense_bucket_.length =
         2 ^ (HyperLogLogPresto.new (-3)).n_leading_bits_ ∧
      (∀ x ∈ (HyperLogLogPresto.new (-3)).dense_bucket_, x = 0) ∧
      (∀ i, (HyperLogLogPresto.new (-3)).overflow_bucket_ i = none) ∧
      (HyperLogLogPresto.new (-3)).cardinality_ = 0) ∧
     ((-3 : Int) < 0 → (HyperLogLog.new (-3)).n_bits_ = 0 ∧
        (HyperLogLogPresto.new (-3)).n_leading_bits_ = 0) ∧
     ((HyperLogLog.new (-3)).n_bits_ = 0 →
       (HyperLogLog.new (-3)).buckets_.length = 1 ∧
       (∀ hash, ComputeBucket (HyperLogLog.new (-3)).n_bits_ hash = 0)) ∧
     ((HyperLogLogPresto.new (-3)).n_leading_bits_ = 0 →
       (HyperLogLogPresto.new (-3)).dense_bucket_.length = 1 ∧
       (∀ hash, ComputeBucketIndex (HyperLogLogPresto.new (-3)).n_leading_bits_ hash = 0))) :=
  ⟨⟨by decide, by decide⟩, C9_construction (-3) (by decide) (by decide)⟩

theorem set_overflow_apply (s : HyperLogLogPresto) (index value j : Nat) :
    (s.SetBucketValue index value).overflow_bucket_ j =
      if value >>> DENSE_BUCKET_SIZE ≠ 0 ∧ j = index then some (value >>> DENSE_BUCKET_SIZE)
      else s.overflow_bucket_ j := by
  rw [set_overflow_bucket]
  by_cases hov : value >>> DENSE_BUCKET_SIZE = 0
  · rw [if_pos hov, if_neg (by tauto)]
  · rw [if_neg hov]
    show (if j = index then some (value >>> DENSE_BUCKET_SIZE) else s.overflow_bucket_ j) = _
    by_cases hji : j = index
    · rw [if_pos hji, if_pos ⟨hov, hji⟩]
    · rw [if_neg hji, if_neg (by tauto)]

theorem getD_mono_write (l : List Nat) (n lmo i : Nat) (hgt : ¬ lmo ≤ l.getD n 0) :
    l.getD i 0 ≤ (l.set n lmo).getD i 0 := by
  rw [getD_set]
  split
  · rename_i hc
    rcases hc with ⟨rfl, _⟩
    omega
  · exact le_refl _

theorem dense_getD_le_addElem (s : HyperLogLog) (hash i : Nat) :
    s.buckets_.getD i 0 ≤ (s.AddElem hash).buckets_.getD i 0 := by
  unfold HyperLogLog.AddElem
  dsimp only
  split
  · exact le_refl _
  · rename_i hgt
    exact getD_mono_write s.buckets_ _ _ i hgt

theorem dense_getD_le_foldl (s : HyperLogLog) (hashes : List Nat) (i : Nat) :
    s.buckets_.getD i 0 ≤ (hashes.foldl HyperLogLog.AddElem s).buckets_.getD i 0 := by
  induction hashes generalizing s with
  | nil => exact le_refl _
  | cons a t ih => exact le_trans (dense_getD_le_addElem s a i) (ih (s.AddElem a))

theorem goodOverflow_new (n : Int) : GoodOverflow (HyperLogLogPresto.new n) :=
  fun _ e h => Option.noConfusion h

theorem presto_get_le_set (s : HyperLogLogPresto) (idx rmo i : Nat)
    (hg : GoodOverflow s) (hgt : s.GetBucketValue idx < rmo) :
    s.GetBucketValue i ≤ (s.SetBucketValue idx rmo).GetBucketValue i := by
  by_cases hji : i = idx
  · subst hji
    rw [get_eq] at hgt
    rw [get_eq, get_eq, set_dense_bucket, getD_set, set_overflow_apply,
      and_mask_eq_mod, shiftr_dense_eq_div]
    by_cases hov : rmo / 16 = 0
    · have hoeq : (if rmo / 16 ≠ 0 ∧ i = i then some (rmo / 16) else s.overflow_bucket_ i)
          = s.overflow_bucket_ i := if_neg (by tauto)
      rw [hoeq]
      cases hob : s.overflow_bucket_ i with
      | none =>
          simp only [hob, ovfVal] at hgt ⊢
          split
          · omega
          · omega
      | some e =>
          have he := hg i e hob
          simp only [hob, ovfVal] at hgt
          exact absurd hgt (by omega)
    · have hoeq : (if rmo / 16 ≠ 0 ∧ i = i then some (rmo / 16) else s.overflow_bucket_ i)
          = some (rmo / 16) := if_pos ⟨hov, rfl⟩
      rw [hoeq, ovfVal_some]
      cases hob : s.overflow_bucket_ i with
      | none =>
          simp only [hob, ovfVal] at hgt ⊢
          split
          · omega
          · omega
      | some e =>
          simp only [hob, ovfVal] at hgt ⊢
          split
          · omega
          · omega
  · rw [get_eq, get_eq, set_dense_bucket, getD_set, set_overflow_apply]
    rw [if_neg (show ¬ (idx = i ∧ idx < s.dense_bucket_.length) from fun hc => hji hc.1.symm)]
    rw [if_neg (show ¬ (rmo >>> DENSE_BUCKET_SIZE ≠ 0 ∧ i = idx) from fun hc => hji hc.2)]

theorem presto_get_le_addElem (s : HyperLogLogPresto) (hash i : Nat)
    (hg : GoodOverflow s) :
    s.GetBucketValue i ≤ (s.AddElem hash).GetBucketValue i := by
  unfold HyperLogLogPresto.AddElem
  dsimp only
  split
  · rename_i hgt
    exact presto_get_le_set s _ _ i hg hgt
  · exact le_refl _

theorem goodOverflow_set (s : HyperLogLogPresto) (index value : Nat)
    (hg : GoodOverflow s) : GoodOverflow (s.SetBucketValue index value) := by
  intro i e he
  rw [set_overflow_apply] at he
  split at he
  · rename_i hc
    have := Option.some.inj he
    omega
  · exact hg i e he

theorem goodOverflow_addElem (s : HyperLogLogPresto) (hash : Nat)
    (hg : GoodOverflow s) : GoodOverflow (s.AddElem hash) := by
  unfold HyperLogLogPresto.AddElem
  dsimp only
  split
  · exact goodOverflow_set s _ _ hg
  · exact hg

theorem goodOverflow_foldl (s : HyperLogLogPresto) (hashes : List Nat)
    (hg : GoodOverflow s) : GoodOverflow (hashes.foldl HyperLogLogPresto.AddElem s) := by
  induction hashes generalizing s with
  | nil => exact hg
  | cons a t ih => exact ih (s.AddElem a) (goodOverflow_addElem s a hg)

theorem presto_get_le_foldl (s : HyperLogLogPresto) (hashes : List Nat) (i : Nat)
    (hg : GoodOverflow s) :
    s.GetBucketValue i ≤ (hashes.foldl HyperLogLogPresto.AddElem s).GetBucketValue i := by
  induction hashes generalizing s with
  | nil => exact le_refl _
  | cons a t ih =>
      exact le_trans (presto_get_le_addElem s a i hg)
        (ih (s.AddElem a) (goodOverflow_addElem s a hg))

/-- C4: along any sequence of AddElem calls from a freshly constructed state,
no register's value (the combined dense+overflow value for the compact
variant) ever decreases: extending a prefix of the hashes with further
AddElem calls can only keep each register's value or make it strictly
greater. -/
theorem C4_registers_monotone (n : Int) (pre post : List Nat) (i : Nat) :
    (denseAdds n pre).buckets_.getD i 0 ≤ (denseAdds n (pre ++ post)).buckets_.getD i 0 ∧
    (prestoAdds n pre).GetBucketValue i ≤ (prestoAdds n (pre ++ post)).GetBucketValue i := by
  unfold denseAdds prestoAdds
  rw [List.foldl_append, List.foldl_append]
  exact ⟨dense_getD_le_foldl _ post i,
    presto_get_le_foldl _ post i (goodOverflow_foldl _ pre (goodOverflow_new n))⟩

theorem dense_card_addElem (s : HyperLogLog) (hash : Nat) :
    (s.AddElem hash).cardinality_ = s.cardinality_ := by
  unfold HyperLogLog.AddElem
  dsimp only
  split <;> rfl

theorem dense_card_compute (s : HyperLogLog) :
    s.ComputeCardinality.cardinality_ = s.cardinality_ ∨
    (s.cardinality_ < s.estimate ∧ s.ComputeCardinality.cardinality_ = s.estimate) := by
  unfold HyperLogLog.ComputeCardinality
  split
  · exact Or.inl rfl
  · split
    · exact Or.inl rfl
    · rename_i h2
      exact Or.inr ⟨by omega, rfl⟩

theorem dense_card_le_step (s : HyperLogLog) (op : HLLOp) :
    s.cardinality_ ≤ (s.step op).cardinality_ := by
  cases op with
  | add hash =>
      show s.cardinality_ ≤ (s.AddElem hash).cardinality_
      rw [dense_card_addElem]
  | compute =>
      show s.cardinality_ ≤ s.ComputeCardinality.cardinality_
      rcases dense_card_compute s with h | ⟨h1, h2⟩ <;> omega

theorem dense_card_le_run (s : HyperLogLog) (ops : List HLLOp) :
    s.cardinality_ ≤ (s.run ops).cardinality_ := by
  induction ops generalizing s with
  | nil => exact le_refl _
  | cons o t ih =>
      show s.cardinality_ ≤ ((s.step o).run t).cardinality_
      exact le_trans (dense_card_le_step s o) (ih (s.step o))

theorem presto_card_addElem (t : HyperLogLogPresto) (hash : Nat) :
    (t.AddElem hash).cardinality_ = t.cardinality_ := by
  unfold HyperLogLogPresto.AddElem
  dsimp only
  split
  · exact set_cardinality t _ _
  · rfl

theorem presto_card_compute (t : HyperLogLogPresto) :
    t.ComputeCardinality.cardinality_ = t.cardinality_ ∨
    (t.cardinality_ < t.CalCardinality t.CalBucketSum ∧
     t.ComputeCardinality.cardinality_ = t.CalCardinality t.CalBucketSum) := by
  unfold HyperLogLogPresto.ComputeCardinality
  dsimp only
  split
  · exact Or.inl rfl
  · rename_i h2
    exact Or.inr ⟨by omega, rfl⟩

theorem presto_card_le_step (t : HyperLogLogPresto) (op : HLLOp) :
    t.cardinality_ ≤ (t.step op).cardinality_ := by
  cases op with
  | add hash =>
      show t.cardinality_ ≤ (t.AddElem hash).cardinality_
      rw [presto_card_addElem]
  | compute =>
      show t.cardinality_ ≤ t.ComputeCardinality.cardinality_
      rcases presto_card_compute t with h | ⟨h1, h2⟩ <;> omega

theorem presto_card_le_run (t : HyperLogLogPresto) (ops : List HLLOp) :
    t.cardinality_ ≤ (t.run ops).cardinality_ := by
  induction ops generalizing t with
  | nil => exact le_refl _
  | cons o l ih =>
      show t.cardinality_ ≤ ((t.step o).run l).cardinality_
      exact le_trans (presto_card_le_step t o) (ih (t.step o))

/-- C5: for every sequence of AddElem and ComputeCardinality calls on either
estimator, the stored cardinality is non-decreasing over time; AddElem never
modifies it, and ComputeCardinality either leaves it unchanged or replaces it
with the freshly computed estimate, the latter exactly when that estimate is
strictly greater than the stored value. -/
theorem C5_cardinality_monotone :
    (∀ (s : HyperLogLog) (hash : Nat), (s.AddElem hash).cardinality_ = s.cardinality_) ∧
    (∀ s : HyperLogLog,
      s.ComputeCardinality.cardinality_ = s.cardinality_ ∨
      (s.cardinality_ < s.estimate ∧ s.ComputeCardinality.cardinality_ = s.estimate)) ∧
    (∀ (s : HyperLogLog) (ops : List HLLOp), s.cardinality_ ≤ (s.run ops).cardinality_) ∧
    (∀ (t : HyperLogLogPresto) (hash : Nat), (t.AddElem hash).cardinality_ = t.cardinality_) ∧
    (∀ t : HyperLogLogPresto,
      t.ComputeCardinality.cardinality_ = t.cardinality_ ∨
      (t.cardinality_ < t.CalCardinality t.CalBucketSum ∧
       t.ComputeCardinality.cardinality_ = t.CalCardinality t.CalBucketSum)) ∧
    (∀ (t : HyperLogLogPresto) (ops : List HLLOp), t.cardinality_ ≤ (t.run ops).cardinality_) :=
  ⟨dense_card_addElem, dense_card_compute, dense_card_le_run,
   presto_card_addElem, presto_card_compute, presto_card_le_run⟩

theorem presto_len_addElem (t : HyperLogLogPresto) (hash : Nat) :
    (t.AddElem hash).dense_bucket_.length = t.dense_bucket_.length := by
  unfold HyperLogLogPresto.AddElem
  dsimp only
  split
  · rw [set_dense_bucket, List.length_set]
  · rfl

theorem presto_len_foldl (t : HyperLogLogPresto) (hashes : List Nat) :
    (hashes.foldl HyperLogLogPresto.AddElem t).dense_bucket_.length =
      t.dense_bucket_.length := by
  induction hashes generalizing t with
  | nil => rfl
  | cons a l ih => rw [List.foldl_cons, ih (t.AddElem a), presto_len_addElem]

/-- C10: for every state of the compact estimator reachable by AddElem calls
from construction, CalBucketSum is strictly positive (the register list is
non-empty and every summand 2 ^ (-GetBucketValue(i)) is positive), so the
division by the sum in CalCardinality is well-defined even though the compact
ComputeCardinality has no sum <= 0 guard. -/
theorem C10_reachable_sum_pos (n : Int) (hashes : List Nat) :
    0 < (prestoAdds n hashes).CalBucketSum := by
  apply calBucketSum_pos
  have hlen : (prestoAdds n hashes).dense_bucket_.length =
      2 ^ (if n < 0 then (0 : Int) else n).toNat := by
    unfold prestoAdds
    rw [presto_len_foldl]
    simp [HyperLogLogPresto.new]
  intro hnil
  rw [hnil] at hlen
  have h2 : 0 < 2 ^ (if n < 0 then (0 : Int) else n).toNat :=
    pow_pos (by norm_num) _
  simp at hlen
  omega

end bustub
